import Mathlib

/-!
Verification of the Clementine utility modules
(`src/core/utilities.cpp` and `ext/libclementine-common/core/closure.cpp`)
against their natural-language specification.

The C++ functions are shallowly embedded as executable Lean definitions.
`QIODevice` byte streams are modelled by explicit response lists: each call
of `read` or `write` consumes the next response of the device, so that both
well-behaved (file-like) devices and degenerate behaviours (error sentinel,
premature end of stream, short writes) are expressible.
-/

namespace Clementine

/-- Bytes are modelled as natural numbers (the value of a `char`). -/
abbrev Byte := Nat

/-- A filesystem path, modelled as the list of its components. -/
abbrev Path := List String

/-! ### Model of `QIODevice` byte streams for `Utilities::Copy` -/

/-- One response of a source device to `source->read(buf, n)`:
either the error sentinel `-1`, or a chunk of bytes actually delivered
(a conforming device delivers at most `n` bytes; the embedding caps the
chunk at the requested count). An exhausted response list models a device
at end of stream, whose further reads return `0` bytes. -/
inductive ReadResp where
  | err : ReadResp
  | chunk : List Byte → ReadResp
deriving DecidableEq, Repr

/-- One response of a destination device to `destination->write(buf, n)`:
either the error sentinel `-1`, or acceptance of `k` bytes (capped at the
requested count). An exhausted response list models a device that accepts
`0` further bytes. -/
inductive WriteResp where
  | err : WriteResp
  | accept : Nat → WriteResp
deriving DecidableEq, Repr

/-- A source `QIODevice*`: whether `open(ReadOnly)` succeeds, the value
reported by `size()`, and the successive responses of `read`. -/
structure SourceDev where
  openOk : Bool
  size : Nat
  reads : List ReadResp
deriving DecidableEq, Repr

/-- A destination `QIODevice*`: whether `open(WriteOnly)` succeeds and the
successive responses of `write`. -/
structure DestDev where
  openOk : Bool
  writes : List WriteResp
deriving DecidableEq, Repr

/-- The observable outcome of `Utilities::Copy`: the returned `bool`, the
open state of each handle when the function returns (the C++ function
contains no `close()` call, so a handle is open at the end exactly when
`open()` succeeded on it during the call), and the bytes that were written
to the destination.  A written byte is `none` when it came from a position
of the heap buffer `new char[bytes]` that no read ever filled
(indeterminate memory). -/
structure CopyResult where
  ret : Bool
  srcOpenAtEnd : Bool
  dstOpenAtEnd : Bool
  written : List (Option Byte)
deriving DecidableEq, Repr

/-- Store the chunk `d` into the buffer at position `pos`
(the effect of `source->read(data.get() + pos, _)` delivering `d`). -/
def writeAt (buf : List (Option Byte)) (pos : Nat) (d : List Byte) :
    List (Option Byte) :=
  buf.take pos ++ d.map some ++ buf.drop (pos + d.length)

/-- The read loop of `Utilities::Copy`:
`do { bytes_read = source->read(data.get() + pos, bytes - pos);
      if (bytes_read == -1) return false;  pos += bytes_read; }
 while (bytes_read > 0 && pos != bytes)`.
Returns `none` when a read returns the error sentinel, otherwise the final
buffer and position. Recursion is on the response list: an exhausted list
is a device returning `0` bytes, which exits the loop. -/
def readLoop : List ReadResp → List (Option Byte) → Nat → Nat →
    Option (List (Option Byte) × Nat)
  | [], buf, pos, _ => some (buf, pos)
  | ReadResp.err :: _, _, _, _ => none
  | ReadResp.chunk d :: rest, buf, pos, bytes =>
      let d' := d.take (bytes - pos)
      let buf' := writeAt buf pos d'
      let pos' := pos + d'.length
      if 0 < d'.length ∧ pos' ≠ bytes then readLoop rest buf' pos' bytes
      else some (buf', pos')

/-- The write loop of `Utilities::Copy`:
`do { bytes_written = destination->write(data.get() + pos, bytes - pos);
      if (bytes_written == -1) return false;  pos += bytes_written; }
 while (bytes_written > 0 && pos != bytes)`.
Returns the success flag together with everything appended to the
destination (kept also on the error path, since those bytes were already
written when the sentinel arrived). -/
def writeLoop : List WriteResp → List (Option Byte) → Nat → Nat →
    List (Option Byte) → Bool × List (Option Byte)
  | [], _, _, _, out => (true, out)
  | WriteResp.err :: _, _, _, _, out => (false, out)
  | WriteResp.accept n :: rest, buf, pos, bytes, out =>
      let k := min n (bytes - pos)
      let out' := out ++ (buf.drop pos).take k
      let pos' := pos + k
      if 0 < k ∧ pos' ≠ bytes then writeLoop rest buf pos' bytes out'
      else (true, out')

namespace Utilities

/-- `Utilities::Copy(QIODevice* source, QIODevice* destination)`:
open source for reading (returning `false` if that fails, before touching
the destination), open destination for writing (returning `false` if that
fails), query `source->size()`, allocate `new char[bytes]`, run the read
loop and then the write loop. Neither handle is ever closed. -/
def Copy (src : SourceDev) (dst : DestDev) : CopyResult :=
  if ¬ src.openOk then
    { ret := false, srcOpenAtEnd := false, dstOpenAtEnd := false,
      written := [] }
  else if ¬ dst.openOk then
    { ret := false, srcOpenAtEnd := true, dstOpenAtEnd := false,
      written := [] }
  else
    let bytes := src.size
    let buf0 : List (Option Byte) := List.replicate bytes none
    match readLoop src.reads buf0 0 bytes with
    | none =>
        { ret := false, srcOpenAtEnd := true, dstOpenAtEnd := true,
          written := [] }
    | some (buf, _) =>
        let r := writeLoop dst.writes buf 0 bytes []
        { ret := r.1, srcOpenAtEnd := true, dstOpenAtEnd := true,
          written := r.2 }

end Utilities

/-- A file-like source holding the byte sequence `B`: opening succeeds,
`size()` reports the length of `B`, and reading delivers the remaining
contents (the first read request asks for all of `B` and a file delivers
everything available). -/
def fileSource (B : List Byte) : SourceDev :=
  { openOk := true, size := B.length, reads := [ReadResp.chunk B] }

/-- A file-like destination: opening succeeds and a write of up to `cap`
bytes is accepted in full. -/
def fileDest (cap : Nat) : DestDev :=
  { openOk := true, writes := [WriteResp.accept cap] }

/-! ### Model of the directory tree for `Utilities::RemoveRecursive` -/

mutual
/-- A directory: its subdirectory entries (as listed by
`entryList(QDir::NoDotAndDotDot | QDir::Dirs)`) and the names of its
regular files (as listed by `entryList(QDir::NoDotAndDotDot | QDir::Files)`).
The special `.` and `..` entries are excluded by construction. -/
inductive FSTree where
  | node : List DirEntry → List String → FSTree
/-- A subdirectory entry: its name and the tree below it. -/
inductive DirEntry where
  | mk : String → FSTree → DirEntry
end

/-- Name of a subdirectory entry. -/
def DirEntry.name : DirEntry → String
  | DirEntry.mk n _ => n

/-- Tree below a subdirectory entry. -/
def DirEntry.tree : DirEntry → FSTree
  | DirEntry.mk _ t => t

/-- A filesystem operation issued by `RemoveRecursive`:
`QFile::remove(path)` or `QDir::rmdir(path)`. -/
inductive FSEvent where
  | rmFile : Path → FSEvent
  | rmDir : Path → FSEvent
deriving DecidableEq, Repr

/-- The path an event operates on. -/
def FSEvent.path : FSEvent → Path
  | FSEvent.rmFile p => p
  | FSEvent.rmDir p => p

namespace Utilities

mutual
/-- `Utilities::RemoveRecursive(path)` as the sequence of filesystem
operations it issues on the tree rooted at `p`: first recurse into every
subdirectory child (in listing order), then `QFile::remove` each file
child, and finally `QDir::rmdir` the directory itself. -/
def RemoveRecursive : FSTree → Path → List FSEvent
  | FSTree.node dirs files, p =>
      RemoveRecursiveDirs dirs p
        ++ files.map (fun f => FSEvent.rmFile (p ++ [f]))
        ++ [FSEvent.rmDir p]
/-- The `foreach` loop over the subdirectory children: each child `n` is
processed by the recursive call `RemoveRecursive(path + "/" + child)`. -/
def RemoveRecursiveDirs : List DirEntry → Path → List FSEvent
  | [], _ => []
  | DirEntry.mk n t :: rest, p =>
      RemoveRecursive t (p ++ [n]) ++ RemoveRecursiveDirs rest p
end

end Utilities

mutual
/-- All paths of the entries of the tree rooted at `p`: the root directory
itself, every descendant subdirectory and every descendant file. -/
def treePaths : FSTree → Path → List Path
  | FSTree.node dirs files, p =>
      p :: (dirPaths dirs p ++ files.map (fun f => p ++ [f]))
/-- All paths contributed by a list of subdirectory children of `p`. -/
def dirPaths : List DirEntry → Path → List Path
  | [], _ => []
  | DirEntry.mk n t :: rest, p =>
      treePaths t (p ++ [n]) ++ dirPaths rest p
end

/-- The names of the subdirectory children. -/
def childNames : List DirEntry → List String
  | [] => []
  | DirEntry.mk n _ :: rest => n :: childNames rest

mutual
/-- Well-formedness of a directory tree as a real filesystem presents it:
within each directory, the names of the children (subdirectories and files
together) are pairwise distinct. -/
def wfTree : FSTree → Bool
  | FSTree.node dirs files =>
      decide ((childNames dirs ++ files).Nodup) && wfDirs dirs
/-- Well-formedness of every tree in a list of subdirectory entries. -/
def wfDirs : List DirEntry → Bool
  | [] => true
  | DirEntry.mk _ t :: rest => wfTree t && wfDirs rest
end

/-- Execute a sequence of filesystem operations on a state, the list of
currently existing paths. `QFile::remove` succeeds when the file exists;
`QDir::rmdir` succeeds when the directory exists and is empty (no existing
path lies strictly below it). With full permissions these are the only
failure modes; a failed operation yields `none`. -/
def run : List FSEvent → List Path → Option (List Path)
  | [], s => some s
  | FSEvent.rmFile p :: rest, s =>
      if p ∈ s then run rest (s.filter (fun q => decide (q ≠ p))) else none
  | FSEvent.rmDir p :: rest, s =>
      if p ∈ s ∧ ∀ q ∈ s, p.isPrefixOf q = true → q = p then
        run rest (s.filter (fun q => decide (q ≠ p)))
      else none

/-! ### Model of `statvfs` for the capacity queries -/

/-- The fields of `struct statvfs` used by the code. -/
structure StatVfsInfo where
  f_bsize : Nat
  f_blocks : Nat
  f_bavail : Nat
deriving DecidableEq, Repr

namespace Utilities

/-- `Utilities::FileSystemCapacity(path)`: the OS query either fails
(`none`) or yields the filesystem statistics. On success the function
returns `f_blocks * f_bsize` as a `quint64`; on failure it returns `0`. -/
def FileSystemCapacity (q : Option StatVfsInfo) : Nat :=
  match q with
  | some fs => (fs.f_blocks * fs.f_bsize) % 2 ^ 64
  | none => 0

/-- `Utilities::FileSystemFreeSpace(path)`: the OS query either fails
(`none`) or yields the filesystem statistics. On success the function
returns `f_bavail * f_bsize` as a `quint64`; on failure it returns `0`. -/
def FileSystemFreeSpace (q : Option StatVfsInfo) : Nat :=
  match q with
  | some fs => (fs.f_bavail * fs.f_bsize) % 2 ^ 64
  | none => 0

end Utilities

/-! ### Model of `Utilities::PrettyTime` -/

/-- The `%02d` conversion for a value in `0..59`: decimal with a leading
zero below ten. -/
def pad2 (n : Nat) : String :=
  if n < 10 then "0" ++ toString n else toString n

namespace Utilities

/-- `Utilities::PrettyTime(int seconds)`: take the absolute value
(`seconds = qAbs(seconds)`, guarding against negative track lengths),
split into hours, minutes and seconds, and format as `h:mm:ss` when there
is a nonzero hour part and as `m:ss` otherwise. -/
def PrettyTime (seconds : Int) : String :=
  let s := seconds.natAbs
  let hours := s / (60 * 60)
  let minutes := (s / 60) % 60
  let secs := s % 60
  if hours ≠ 0 then
    toString hours ++ ":" ++ pad2 minutes ++ ":" ++ pad2 secs
  else
    toString minutes ++ ":" ++ pad2 secs

end Utilities

/-! ### Model of the closure helpers (`closure.cpp`) -/

/-- Modelled from the spec: the constant `kMsecPerSec` comes from
`core/timeconstants.h`, which is not among the given sources; it is the
number of milliseconds in one second, `1000`. -/
def kMsecPerSec : Nat := 1000

/-- `DoAfter(receiver, slot, msec)` schedules the slot on a single-shot
timer with the given delay; the observable effect is the delay in
milliseconds handed to `QTimer::singleShot`. -/
def DoAfter (msec : Nat) : Nat := msec

/-- `DoInAMinuteOrSo(receiver, slot)`: computes
`(60 + (qrand() % 60)) * kMsecPerSec` and delegates to `DoAfter`.
The parameter `q` is the (nonnegative) value returned by `qrand()`. -/
def DoInAMinuteOrSo (q : Nat) : Nat :=
  DoAfter ((60 + q % 60) * kMsecPerSec)

/-- Concrete tree used in witnesses: a root with one subdirectory
containing two files and one empty subdirectory. -/
def sampleTree : FSTree :=
  FSTree.node
    [DirEntry.mk "sub" (FSTree.node [] ["f1", "f2"]),
     DirEntry.mk "empty" (FSTree.node [] [])]
    []

/-- Root path of the sample tree. -/
def samplePath : Path := ["root"]

/-- An ambient filesystem state for witnesses: all entries of the sample
tree plus one unrelated path. -/
def sampleState : List Path :=
  treePaths sampleTree samplePath ++ [["other"]]

/-! ### Lemmas about the `Copy` loops -/

theorem writeAt_filled (pre c : List Byte) (k : Nat) :
    writeAt (pre.map some ++ List.replicate k none) pre.length c
      = (pre ++ c).map some ++ List.replicate (k - c.length) none := by
  unfold writeAt
  rw [List.take_left' (by simp), List.drop_append_eq_append_drop]
  simp [List.drop_replicate]

theorem readLoop_chunks (cs : List (List Byte)) :
    ∀ pre suf : List Byte, (∀ c ∈ cs, c ≠ []) → cs.flatten = suf →
    readLoop (cs.map ReadResp.chunk)
        (pre.map some ++ List.replicate suf.length none)
        pre.length (pre.length + suf.length)
      = some ((pre ++ suf).map some, pre.length + suf.length) := by
  induction cs with
  | nil =>
      intro pre suf _ hjoin
      simp only [List.flatten_nil] at hjoin
      subst hjoin
      simp [readLoop]
  | cons c rest ih =>
      intro pre suf hne hjoin
      simp only [List.flatten_cons] at hjoin
      subst hjoin
      have hcle : c.length ≤ c.length + rest.flatten.length := Nat.le_add_right _ _
      simp only [List.map_cons, readLoop]
      rw [show pre.length + (c ++ rest.flatten).length - pre.length
            = (c ++ rest.flatten).length by omega]
      rw [List.take_of_length_le (by simp)]
      rw [show (c ++ rest.flatten).length = c.length + rest.flatten.length by simp]
      rw [writeAt_filled]
      rw [show c.length + rest.flatten.length - c.length = rest.flatten.length by omega]
      by_cases hrest : rest.flatten.length = 0
      · have : ¬ (0 < c.length ∧
            pre.length + c.length ≠ pre.length + (c.length + rest.flatten.length)) := by
          omega
        rw [if_neg this]
        have hnil : rest.flatten = [] := List.length_eq_zero.mp hrest
        simp [hnil]
      · have hc : c ≠ [] := hne c (List.mem_cons_self _ _)
        have hclen : 0 < c.length := List.length_pos.mpr hc
        rw [if_pos (by omega)]
        have := ih (pre ++ c) rest.flatten (fun x hx => hne x (List.mem_cons_of_mem _ hx)) rfl
        simp only [List.length_append, List.map_append, List.append_assoc,
          Nat.add_assoc] at this ⊢
        exact this

theorem writeLoop_accept_all (buf : List (Option Byte)) (cap : Nat)
    (h : buf.length ≤ cap) :
    writeLoop [WriteResp.accept cap] buf 0 buf.length [] = (true, buf) := by
  unfold writeLoop
  rw [Nat.sub_zero, Nat.min_eq_right h]
  simp

/-- Claim C1: for every byte sequence `B` (including the empty sequence),
if `Copy(source, destination)` returns `true` then the destination's
contents equal `B`, the contents of the source at the time of the size
query. Proved in the strong form: for a source holding `B` (its `size()`
reports `B`'s length and its reads deliver `B` in any succession of
nonempty chunks) and a file-like destination, `Copy` returns `true` and
the destination receives exactly the bytes of `B`. -/
theorem copy_duplicates_contents (B : List Byte) (cs : List (List Byte))
    (hne : ∀ c ∈ cs, c ≠ []) (hjoin : cs.flatten = B) :
    Utilities.Copy { openOk := true, size := B.length,
                     reads := cs.map ReadResp.chunk } (fileDest B.length)
      = { ret := true, srcOpenAtEnd := true, dstOpenAtEnd := true,
          written := B.map some } := by
  have hread := readLoop_chunks cs [] B hne hjoin
  simp only [List.map_nil, List.nil_append, List.length_nil, Nat.zero_add] at hread
  unfold Utilities.Copy
  simp only [Bool.not_true, if_neg, fileDest]
  rw [if_neg (by simp), if_neg (by simp)]
  simp only [hread]
  have hw := writeLoop_accept_all (B.map some) B.length (by simp)
  rw [show (B.map some).length = B.length by simp] at hw
  simp [hw]

/-- Witness for C1 at `B = [1, 2, 3]` delivered in two chunks. -/
theorem copy_duplicates_contents_witness :
    (∀ c ∈ [[1, 2], [3]], c ≠ ([] : List Byte)) ∧
    Utilities.Copy { openOk := true, size := 3,
                     reads := [ReadResp.chunk [1, 2], ReadResp.chunk [3]] }
        (fileDest 3)
      = { ret := true, srcOpenAtEnd := true, dstOpenAtEnd := true,
          written := [some 1, some 2, some 3] } :=
  ⟨by decide, copy_duplicates_contents [1, 2, 3] [[1, 2], [3]] (by decide) rfl⟩

/-- Claim C3 counterexample: copying the one-byte sequence `[1]` between
file-like devices returns `true`, yet both handles are still open when
`Copy` returns — the function contains no `close()` call, contradicting
the claim that neither handle remains open after any call. -/
theorem copy_handles_counterexample :
    (Utilities.Copy (fileSource [1]) (fileDest 1)).ret = true ∧
    (Utilities.Copy (fileSource [1]) (fileDest 1)).srcOpenAtEnd = true ∧
    (Utilities.Copy (fileSource [1]) (fileDest 1)).dstOpenAtEnd = true := by
  decide

/-- Claim C3 amended: `Copy` never closes either stream. A handle is open
when `Copy` returns exactly when `Copy` opened it: the source is open at
the end iff its `open()` succeeded, and the destination is open at the end
iff the source's `open()` succeeded (otherwise `Copy` returns before
touching the destination) and its own `open()` succeeded. -/
theorem copy_never_closes (src : SourceDev) (dst : DestDev) :
    (Utilities.Copy src dst).srcOpenAtEnd = src.openOk ∧
    (Utilities.Copy src dst).dstOpenAtEnd = (src.openOk && dst.openOk) := by
  unfold Utilities.Copy
  by_cases h1 : src.openOk = true
  · by_cases h2 : dst.openOk = true
    · rw [if_neg (by simp [h1]), if_neg (by simp [h2])]
      cases hr : readLoop src.reads (List.replicate src.size none) 0 src.size with
      | none => simp [hr, h1, h2]
      | some r =>
          cases r with
          | mk buf pos => simp [hr, h1, h2]
    · rw [if_neg (by simp [h1]), if_pos h2]
      simp only [Bool.not_eq_true] at h2
      simp [h1, h2]
  · rw [if_pos h1]
    simp only [Bool.not_eq_true] at h1
    simp [h1]

/-- Claim C4: when the source fails to open, `Copy` returns `false` and
performs no operation on the destination: the destination is never opened
(hence not open at the end) and nothing is written to it. -/
theorem copy_source_open_fails (src : SourceDev) (dst : DestDev)
    (h : src.openOk = false) :
    Utilities.Copy src dst
      = { ret := false, srcOpenAtEnd := false, dstOpenAtEnd := false,
          written := [] } := by
  unfold Utilities.Copy
  rw [if_pos (by simp [h])]

/-- Witness for C4: a source whose `open()` fails. -/
theorem copy_source_open_fails_witness :
    SourceDev.openOk { openOk := false, size := 5, reads := [] } = false ∧
    Utilities.Copy { openOk := false, size := 5, reads := [] } (fileDest 5)
      = { ret := false, srcOpenAtEnd := false, dstOpenAtEnd := false,
          written := [] } :=
  ⟨rfl, copy_source_open_fails { openOk := false, size := 5, reads := [] }
    (fileDest 5) rfl⟩

/-- Claim C7: for a zero-length source that opens successfully (whatever
its first read response delivers) and a destination that opens
successfully (whatever its first write response accepts), both loops of
`Copy` exit after their first iteration — the result does not depend on
any further device responses — `Copy` returns `true`, and the destination
receives zero bytes. -/
theorem copy_zero_length (d : List Byte) (restR : List ReadResp)
    (n : Nat) (restW : List WriteResp) :
    Utilities.Copy { openOk := true, size := 0,
                     reads := ReadResp.chunk d :: restR }
        { openOk := true, writes := WriteResp.accept n :: restW }
      = { ret := true, srcOpenAtEnd := true, dstOpenAtEnd := true,
          written := [] } := by
  unfold Utilities.Copy
  rw [if_neg (by simp), if_neg (by simp)]
  simp [readLoop, writeLoop, writeAt]

/-- Claim C8: if both streams open, the source reports size `N` but its
only read delivers fewer than `N` bytes (the following read returns `0`:
premature end of stream), `Copy` does not report failure — it exits the
read loop, writes all `N` buffer bytes to the (file-like) destination,
including the positions never filled by a read, and returns `true`. -/
theorem copy_premature_eof (d : List Byte) (N : Nat) (h : d.length < N) :
    Utilities.Copy { openOk := true, size := N, reads := [ReadResp.chunk d] }
        (fileDest N)
      = { ret := true, srcOpenAtEnd := true, dstOpenAtEnd := true,
          written := d.map some ++ List.replicate (N - d.length) none } := by
  unfold Utilities.Copy
  rw [if_neg (by simp), if_neg (by simp [fileDest])]
  have hbuf : writeAt (List.replicate N (none : Option Byte)) 0 d
      = d.map some ++ List.replicate (N - d.length) none := by
    have := writeAt_filled [] d N
    simpa using this
  have hlen : (d.map some ++ List.replicate (N - d.length)
      (none : Option Byte)).length = N := by
    simp; omega
  have hread : readLoop [ReadResp.chunk d] (List.replicate N none) 0 N
      = some (d.map some ++ List.replicate (N - d.length) none, d.length) := by
    unfold readLoop
    rw [Nat.sub_zero, List.take_of_length_le (Nat.le_of_lt h)]
    simp only [hbuf, Nat.zero_add]
    by_cases hd : d.length = 0
    · rw [if_neg (by omega)]
    · rw [if_pos (by constructor <;> omega)]
      simp [readLoop]
  simp only [hread, fileDest]
  have hw := writeLoop_accept_all
    (d.map some ++ List.replicate (N - d.length) none) N (le_of_eq hlen)
  rw [hlen] at hw
  simp [hw]

/-- Witness for C8: a source reporting size `2` whose single read delivers
only the byte `7`; the destination receives `7` followed by one
indeterminate byte, and `Copy` returns `true`. -/
theorem copy_premature_eof_witness :
    ([7] : List Byte).length < 2 ∧
    Utilities.Copy { openOk := true, size := 2, reads := [ReadResp.chunk [7]] }
        (fileDest 2)
      = { ret := true, srcOpenAtEnd := true, dstOpenAtEnd := true,
          written := [some 7, none] } :=
  ⟨by decide, copy_premature_eof [7] 2 (by decide)⟩

/-! ### Lemmas about paths and the tree structure -/

theorem isPrefixOf_iff (p : Path) :
    ∀ q : Path, p.isPrefixOf q = true ↔ ∃ r, p ++ r = q := by
  induction p with
  | nil =>
      intro q
      simp [List.isPrefixOf]
  | cons a as ih =>
      intro q
      cases q with
      | nil => simp [List.isPrefixOf]
      | cons b bs =>
          simp only [List.isPrefixOf, Bool.and_eq_true, beq_iff_eq, ih bs,
            List.cons_append, List.cons.injEq]
          constructor
          · rintro ⟨h1, r, h2⟩
            exact ⟨r, h1, h2⟩
          · rintro ⟨r, h1, h2⟩
            exact ⟨h1, r, h2⟩

theorem mem_dirPaths : ∀ (dirs : List DirEntry) (p q : Path),
    q ∈ dirPaths dirs p ↔
      ∃ d ∈ dirs, q ∈ treePaths d.tree (p ++ [d.name])
  | [], p, q => by simp [dirPaths]
  | DirEntry.mk n t :: rest, p, q => by
      simp only [dirPaths, List.mem_append, mem_dirPaths rest p q,
        List.mem_cons]
      constructor
      · rintro (h | ⟨d, hd, hq⟩)
        · exact ⟨DirEntry.mk n t, Or.inl rfl, h⟩
        · exact ⟨d, Or.inr hd, hq⟩
      · rintro ⟨d, hd | hd, hq⟩
        · subst hd
          exact Or.inl hq
        · exact Or.inr ⟨d, hd, hq⟩

mutual
theorem treePaths_below : ∀ (t : FSTree) (p q : Path),
    q ∈ treePaths t p → ∃ r, p ++ r = q
  | FSTree.node dirs files, p, q => by
      intro hq
      simp only [treePaths, List.mem_cons, List.mem_append,
        List.mem_map] at hq
      rcases hq with rfl | hq | ⟨f, _, rfl⟩
      · exact ⟨[], by simp⟩
      · obtain ⟨r, _, hr⟩ := dirPaths_below dirs p q hq
        exact ⟨r, hr⟩
      · exact ⟨[f], rfl⟩
theorem dirPaths_below : ∀ (dirs : List DirEntry) (p q : Path),
    q ∈ dirPaths dirs p → ∃ r, r ≠ [] ∧ p ++ r = q
  | [], p, q => by simp [dirPaths]
  | DirEntry.mk n t :: rest, p, q => by
      intro hq
      simp only [dirPaths, List.mem_append] at hq
      rcases hq with hq | hq
      · obtain ⟨r, hr⟩ := treePaths_below t (p ++ [n]) q hq
        refine ⟨n :: r, by simp, ?_⟩
        simpa [List.append_assoc] using hr
      · exact dirPaths_below rest p q hq
end

theorem below_same_length {p1 p2 q : Path} (h1 : ∃ r, p1 ++ r = q)
    (h2 : ∃ r, p2 ++ r = q) (hl : p1.length = p2.length) : p1 = p2 := by
  obtain ⟨r1, hr1⟩ := h1
  obtain ⟨r2, hr2⟩ := h2
  exact (List.append_inj (hr1.trans hr2.symm) hl).1

theorem below_singleton_eq {p q : Path} {n m : String}
    (h1 : ∃ r, (p ++ [n]) ++ r = q) (h2 : ∃ r, (p ++ [m]) ++ r = q) :
    n = m := by
  have h := below_same_length h1 h2 (by simp)
  have := List.append_cancel_left h
  simpa using this

theorem name_mem_childNames : ∀ (dirs : List DirEntry) (d : DirEntry),
    d ∈ dirs → d.name ∈ childNames dirs
  | [], d => by simp
  | DirEntry.mk n t :: rest, d => by
      intro hd
      rcases List.mem_cons.mp hd with rfl | hd
      · simp [childNames, DirEntry.name]
      · simp only [childNames, List.mem_cons]
        exact Or.inr (name_mem_childNames rest d hd)

theorem entry_unique : ∀ (dirs : List DirEntry),
    (childNames dirs).Nodup → ∀ d ∈ dirs, ∀ d' ∈ dirs,
      d.name = d'.name → d = d'
  | [] => by simp
  | DirEntry.mk n t :: rest => by
      intro hnd d hd d' hd' hname
      simp only [childNames, List.nodup_cons] at hnd
      rcases List.mem_cons.mp hd with rfl | hd <;>
        rcases List.mem_cons.mp hd' with h' | h'
      · rw [h']
      · have h2 := name_mem_childNames rest d' h'
        rw [← hname] at h2
        exact absurd h2 hnd.1
      · rw [h'] at hname
        have h2 := name_mem_childNames rest d hd
        rw [hname] at h2
        exact absurd h2 hnd.1
      · exact entry_unique rest hnd.2 d hd d' h' hname

theorem filePath_not_mem_dirPaths (dirs : List DirEntry)
    (files : List String) (p : Path) (f : String)
    (hnd : (childNames dirs ++ files).Nodup) (hf : f ∈ files) :
    p ++ [f] ∉ dirPaths dirs p := by
  intro hq
  obtain ⟨d, hd, hq⟩ := (mem_dirPaths dirs p (p ++ [f])).mp hq
  have hb := treePaths_below d.tree (p ++ [d.name]) (p ++ [f]) hq
  have : d.name = f :=
    below_singleton_eq hb ⟨[], by simp⟩
  have hdisj := List.disjoint_of_nodup_append hnd
  exact hdisj (this ▸ name_mem_childNames dirs d hd) hf

theorem self_not_mem_dirPaths (dirs : List DirEntry) (p : Path) :
    p ∉ dirPaths dirs p := by
  intro hq
  obtain ⟨r, hr, hb⟩ := dirPaths_below dirs p p hq
  have := congrArg List.length hb
  simp only [List.length_append] at this
  have : r.length = 0 := by omega
  exact hr (List.length_eq_zero.mp this)

/-! ### Lemmas about executing removal traces -/

theorem run_append : ∀ (evs1 evs2 : List FSEvent) (s : List Path),
    run (evs1 ++ evs2) s = (run evs1 s).bind (run evs2)
  | [], evs2, s => by simp [run]
  | FSEvent.rmFile p :: rest, evs2, s => by
      simp only [List.cons_append, run]
      by_cases h : p ∈ s
      · rw [if_pos h, if_pos h]
        exact run_append rest evs2 _
      · rw [if_neg h, if_neg h]
        rfl
  | FSEvent.rmDir p :: rest, evs2, s => by
      simp only [List.cons_append, run]
      by_cases h : p ∈ s ∧ ∀ q ∈ s, p.isPrefixOf q = true → q = p
      · rw [if_pos h, if_pos h]
        exact run_append rest evs2 _
      · rw [if_neg h, if_neg h]
        rfl

theorem run_rmFiles : ∀ (fps : List Path) (s : List Path), fps.Nodup →
    (∀ x ∈ fps, x ∈ s) →
    run (fps.map FSEvent.rmFile) s
      = some (s.filter (fun q => decide (q ∉ fps)))
  | [], s => by
      intro _ _
      simp [run]
  | f :: rest, s => by
      intro hnd hsub
      have hnd' := List.nodup_cons.mp hnd
      have hsub' : ∀ x ∈ rest, x ∈ s.filter (fun q => decide (q ≠ f)) := by
        intro x hx
        refine List.mem_filter.mpr ⟨hsub x (List.mem_cons_of_mem f hx), ?_⟩
        simp only [decide_eq_true_eq]
        intro hxf
        rw [hxf] at hx
        exact hnd'.1 hx
      simp only [List.map_cons, run]
      rw [if_pos (hsub f (List.mem_cons_self f rest))]
      rw [run_rmFiles rest _ hnd'.2 hsub']
      congr 1
      rw [List.filter_filter]
      apply List.filter_congr
      intro q _
      rw [← Bool.decide_and, decide_eq_decide, List.mem_cons, not_or]
      exact and_comm

mutual
/-- Executing the trace of `RemoveRecursive` on a directory tree `t` at
`p` from any filesystem state that contains all entries of the tree and
in which every path at or below `p` belongs to the tree: every single
operation succeeds — in particular, every `rmdir` finds its directory
empty, since all children were processed first — and afterward the state
is the original one minus exactly the entries of the tree. -/
theorem run_RemoveRecursive : ∀ (t : FSTree) (p : Path) (s : List Path),
    wfTree t = true →
    (∀ q ∈ treePaths t p, q ∈ s) →
    (∀ q ∈ s, p.isPrefixOf q = true → q ∈ treePaths t p) →
    run (Utilities.RemoveRecursive t p) s
      = some (s.filter (fun q => decide (q ∉ treePaths t p)))
  | FSTree.node dirs files, p, s => by
      intro hw hsub hfor
      have hw' : (childNames dirs ++ files).Nodup ∧ wfDirs dirs = true := by
        simpa [wfTree, Bool.and_eq_true] using hw
      obtain ⟨hnodup, hwd⟩ := hw'
      have hnames : (childNames dirs).Nodup := hnodup.of_append_left
      have hfiles : files.Nodup := hnodup.of_append_right
      have htp : treePaths (FSTree.node dirs files) p
          = p :: (dirPaths dirs p ++ files.map (fun f => p ++ [f])) := by
        simp [treePaths]
      have hsubD : ∀ q ∈ dirPaths dirs p, q ∈ s := by
        intro q hq
        refine hsub q ?_
        rw [htp]
        exact List.mem_cons_of_mem _ (List.mem_append_left _ hq)
      have hforD : ∀ q ∈ s, ∀ d ∈ dirs,
          (p ++ [d.name]).isPrefixOf q = true →
          q ∈ treePaths d.tree (p ++ [d.name]) := by
        intro q hq d hd hpre
        obtain ⟨r0, hr0⟩ := (isPrefixOf_iff _ q).mp hpre
        have hbelp : p.isPrefixOf q = true := by
          refine (isPrefixOf_iff p q).mpr ⟨d.name :: r0, ?_⟩
          simpa [List.append_assoc] using hr0
        have hmem := hfor q hq hbelp
        rw [htp] at hmem
        rcases List.mem_cons.mp hmem with rfl | hmem
        · exfalso
          have hlen := congrArg List.length hr0
          simp only [List.length_append, List.length_cons,
            List.length_nil] at hlen
          omega
        · rcases List.mem_append.mp hmem with hmem | hmem
          · obtain ⟨d', hd', hq'⟩ := (mem_dirPaths dirs p q).mp hmem
            have hb' := treePaths_below d'.tree (p ++ [d'.name]) q hq'
            have hnn : d.name = d'.name := below_singleton_eq ⟨r0, hr0⟩ hb'
            rw [entry_unique dirs hnames d hd d' hd' hnn]
            exact hq'
          · obtain ⟨f, hf, rfl⟩ := List.mem_map.mp hmem
            exfalso
            have hnn : d.name = f :=
              below_singleton_eq ⟨r0, hr0⟩ ⟨[], by simp⟩
            have hdisj := List.disjoint_of_nodup_append hnodup
            have h3 := name_mem_childNames dirs d hd
            rw [hnn] at h3
            exact hdisj h3 hf
      have hstep1 := run_RemoveRecursiveDirs dirs p s hwd hnames hsubD hforD
      have hfpsnd : (files.map (fun f => p ++ [f])).Nodup := by
        refine hfiles.map ?_
        intro a b hab
        simpa using List.append_cancel_left (hab : p ++ [a] = p ++ [b])
      have hfsub : ∀ x ∈ files.map (fun f => p ++ [f]),
          x ∈ s.filter (fun q => decide (q ∉ dirPaths dirs p)) := by
        intro x hx
        obtain ⟨f, hf, rfl⟩ := List.mem_map.mp hx
        refine List.mem_filter.mpr ⟨hsub _ ?_, ?_⟩
        · rw [htp]
          exact List.mem_cons_of_mem _
            (List.mem_append_right _ (List.mem_map.mpr ⟨f, hf, rfl⟩))
        · simp only [decide_eq_true_eq]
          exact filePath_not_mem_dirPaths dirs files p f hnodup hf
      have hstep2 := run_rmFiles (files.map (fun f => p ++ [f]))
        (s.filter (fun q => decide (q ∉ dirPaths dirs p))) hfpsnd hfsub
      have hpmem : p ∈ (s.filter (fun q => decide (q ∉ dirPaths dirs p))).filter
          (fun q => decide (q ∉ files.map (fun f => p ++ [f]))) := by
        refine List.mem_filter.mpr ⟨List.mem_filter.mpr ⟨hsub p ?_, ?_⟩, ?_⟩
        · rw [htp]
          exact List.mem_cons_self _ _
        · simp only [decide_eq_true_eq]
          exact self_not_mem_dirPaths dirs p
        · simp only [decide_eq_true_eq, List.mem_map, not_exists]
          intro f
          rintro ⟨hf, hcontra⟩
          have hlen := congrArg List.length hcontra
          simp only [List.length_append, List.length_cons,
            List.length_nil] at hlen
          omega
      have hempty : ∀ q ∈ (s.filter
            (fun q => decide (q ∉ dirPaths dirs p))).filter
            (fun q => decide (q ∉ files.map (fun f => p ++ [f]))),
          p.isPrefixOf q = true → q = p := by
        intro q hq hpre
        have hq1 := List.mem_filter.mp hq
        have hq2 := List.mem_filter.mp hq1.1
        have hnd1 : q ∉ dirPaths dirs p := by simpa using hq2.2
        have hnf1 : q ∉ files.map (fun f => p ++ [f]) := by simpa using hq1.2
        have hmem := hfor q hq2.1 hpre
        rw [htp] at hmem
        rcases List.mem_cons.mp hmem with rfl | hmem
        · rfl
        · rcases List.mem_append.mp hmem with hmem | hmem
          · exact absurd hmem hnd1
          · exact absurd hmem hnf1
      have hRR : Utilities.RemoveRecursive (FSTree.node dirs files) p
          = (Utilities.RemoveRecursiveDirs dirs p
              ++ files.map (fun f => FSEvent.rmFile (p ++ [f])))
            ++ [FSEvent.rmDir p] := by
        simp [Utilities.RemoveRecursive]
      have hmapmap : (files.map (fun f => p ++ [f])).map FSEvent.rmFile
          = files.map (fun f => FSEvent.rmFile (p ++ [f])) := by
        rw [List.map_map]
        rfl
      rw [hRR, run_append, run_append, hstep1]
      rw [show ∀ x : List Path, (some x).bind (run (files.map
            (fun f => FSEvent.rmFile (p ++ [f])))) = run (files.map
            (fun f => FSEvent.rmFile (p ++ [f]))) x from fun _ => rfl]
      rw [← hmapmap, hstep2]
      rw [show ∀ x : List Path, (some x).bind (run [FSEvent.rmDir p])
            = run [FSEvent.rmDir p] x from fun _ => rfl]
      simp only [run]
      rw [if_pos ⟨hpmem, hempty⟩]
      congr 1
      rw [List.filter_filter, List.filter_filter]
      apply List.filter_congr
      intro q _
      rw [← Bool.decide_and, ← Bool.decide_and, decide_eq_decide, htp]
      simp only [List.mem_cons, List.mem_append, not_or]
      constructor
      · rintro ⟨⟨h1, h2⟩, h3⟩
        exact ⟨h1, h3, h2⟩
      · rintro ⟨h1, h3, h2⟩
        exact ⟨⟨h1, h2⟩, h3⟩

/-- Executing the traces of the subdirectory pass: every subdirectory
subtree is removed in turn, leaving the state minus all their entries. -/
theorem run_RemoveRecursiveDirs : ∀ (dirs : List DirEntry) (p : Path)
    (s : List Path),
    wfDirs dirs = true → (childNames dirs).Nodup →
    (∀ q ∈ dirPaths dirs p, q ∈ s) →
    (∀ q ∈ s, ∀ d ∈ dirs, (p ++ [d.name]).isPrefixOf q = true →
        q ∈ treePaths d.tree (p ++ [d.name])) →
    run (Utilities.RemoveRecursiveDirs dirs p) s
      = some (s.filter (fun q => decide (q ∉ dirPaths dirs p)))
  | [], p, s => by
      intro _ _ _ _
      simp [Utilities.RemoveRecursiveDirs, run, dirPaths]
  | DirEntry.mk n t :: rest, p, s => by
      intro hwd hnames hsub hfor
      have hw1 : wfTree t = true ∧ wfDirs rest = true := by
        simpa [wfDirs, Bool.and_eq_true] using hwd
      have hnames' := List.nodup_cons.mp hnames
      have hdp : dirPaths (DirEntry.mk n t :: rest) p
          = treePaths t (p ++ [n]) ++ dirPaths rest p := by
        simp [dirPaths]
      have hsubT : ∀ q ∈ treePaths t (p ++ [n]), q ∈ s := by
        intro q hq
        refine hsub q ?_
        rw [hdp]
        exact List.mem_append_left _ hq
      have hforT : ∀ q ∈ s, (p ++ [n]).isPrefixOf q = true →
          q ∈ treePaths t (p ++ [n]) := by
        intro q hq hpre
        exact hfor q hq (DirEntry.mk n t) (List.mem_cons_self _ _) hpre
      have hstep1 := run_RemoveRecursive t (p ++ [n]) s hw1.1 hsubT hforT
      have hsubR : ∀ q ∈ dirPaths rest p,
          q ∈ s.filter (fun x => decide (x ∉ treePaths t (p ++ [n]))) := by
        intro q hq
        refine List.mem_filter.mpr ⟨?_, ?_⟩
        · refine hsub q ?_
          rw [hdp]
          exact List.mem_append_right _ hq
        · simp only [decide_eq_true_eq]
          intro hq'
          obtain ⟨d', hd', hq''⟩ := (mem_dirPaths rest p q).mp hq
          have h1 := treePaths_below t (p ++ [n]) q hq'
          have h2 := treePaths_below d'.tree (p ++ [d'.name]) q hq''
          have h3 := name_mem_childNames rest d' hd'
          rw [← below_singleton_eq h1 h2] at h3
          exact hnames'.1 h3
      have hforR : ∀ q ∈ s.filter
            (fun x => decide (x ∉ treePaths t (p ++ [n]))),
          ∀ d ∈ rest, (p ++ [d.name]).isPrefixOf q = true →
            q ∈ treePaths d.tree (p ++ [d.name]) := by
        intro q hq d hd hpre
        exact hfor q (List.mem_filter.mp hq).1 d
          (List.mem_cons_of_mem _ hd) hpre
      have hstep2 := run_RemoveRecursiveDirs rest p
        (s.filter (fun x => decide (x ∉ treePaths t (p ++ [n]))))
        hw1.2 hnames'.2 hsubR hforR
      have hRRD : Utilities.RemoveRecursiveDirs (DirEntry.mk n t :: rest) p
          = Utilities.RemoveRecursive t (p ++ [n])
            ++ Utilities.RemoveRecursiveDirs rest p := by
        simp [Utilities.RemoveRecursiveDirs]
      rw [hRRD, run_append, hstep1]
      rw [show ∀ x : List Path,
            (some x).bind (run (Utilities.RemoveRecursiveDirs rest p))
              = run (Utilities.RemoveRecursiveDirs rest p) x
          from fun _ => rfl]
      rw [hstep2]
      congr 1
      rw [List.filter_filter]
      apply List.filter_congr
      intro q _
      rw [← Bool.decide_and, decide_eq_decide, hdp]
      simp only [List.mem_append, not_or]
      exact and_comm
end

/-- Claim C2: for every well-formed directory tree, starting from the
filesystem state consisting of exactly the entries of the tree (full
permissions assumed: `run` only fails when a removal's precondition is
violated), executing `RemoveRecursive` succeeds and leaves the empty
state: neither the root directory nor any descendant file or
subdirectory still exists. -/
theorem removeRecursive_removes_all (t : FSTree) (p : Path)
    (hw : wfTree t = true) :
    run (Utilities.RemoveRecursive t p) (treePaths t p) = some [] := by
  have h := run_RemoveRecursive t p (treePaths t p) hw (fun q hq => hq)
    (fun q hq _ => hq)
  rw [h]
  congr 1
  rw [List.filter_eq_nil_iff]
  intro a ha
  simp [ha]

/-- Witness for C2: the spec's concrete scenario — a root containing one
subdirectory with two files and one empty subdirectory. -/
theorem removeRecursive_removes_all_witness :
    wfTree sampleTree = true ∧
    run (Utilities.RemoveRecursive sampleTree samplePath)
        (treePaths sampleTree samplePath) = some [] :=
  ⟨by decide, removeRecursive_removes_all sampleTree samplePath (by decide)⟩

/-- Claim C5: `RemoveRecursive` processes the tree depth-first, children
before parent — subdirectory children are recursed into first, then the
regular files are deleted, and only then is the directory itself removed
(that order is the definition of `Utilities.RemoveRecursive`, mirroring
the C++). Consequently a directory is never removed while it still
contains an entry: in any ambient filesystem state that contains the
tree's entries and has no foreign entry at or below `p`, every operation
of the trace succeeds — `run` checks at each `rmdir` that the directory
exists and is empty — and exactly the tree's entries are removed. -/
theorem removeRecursive_children_before_parent (t : FSTree) (p : Path)
    (s : List Path) (hw : wfTree t = true)
    (hsub : ∀ q ∈ treePaths t p, q ∈ s)
    (hfor : ∀ q ∈ s, p.isPrefixOf q = true → q ∈ treePaths t p) :
    run (Utilities.RemoveRecursive t p) s
      = some (s.filter (fun q => decide (q ∉ treePaths t p))) :=
  run_RemoveRecursive t p s hw hsub hfor

/-- Witness for C5: the sample tree inside an ambient state that also
contains one unrelated path, which survives the removal. -/
theorem removeRecursive_children_before_parent_witness :
    (wfTree sampleTree = true ∧
     (∀ q ∈ treePaths sampleTree samplePath, q ∈ sampleState) ∧
     (∀ q ∈ sampleState, samplePath.isPrefixOf q = true →
        q ∈ treePaths sampleTree samplePath)) ∧
    run (Utilities.RemoveRecursive sampleTree samplePath) sampleState
      = some (sampleState.filter
          (fun q => decide (q ∉ treePaths sampleTree samplePath))) :=
  ⟨⟨by decide, by decide, by decide⟩,
    removeRecursive_children_before_parent sampleTree samplePath sampleState
      (by decide) (by decide) (by decide)⟩

/-- Claim C6: when the underlying OS filesystem query fails (path does not
exist, filesystem unsupported, permission denied — modelled as the query
yielding no statistics), `FileSystemCapacity` and `FileSystemFreeSpace`
each return zero rather than signaling an error. -/
theorem filesystem_query_fails_zero :
    Utilities.FileSystemCapacity none = 0 ∧
    Utilities.FileSystemFreeSpace none = 0 :=
  ⟨rfl, rfl⟩

/-- Claim C9: `PrettyTime(s) = PrettyTime(-s)` for every integer number of
seconds — the first statement of the function is `seconds = qAbs(seconds)`,
so the formatted duration depends only on the absolute value. -/
theorem prettyTime_neg (s : Int) :
    Utilities.PrettyTime s = Utilities.PrettyTime (-s) := by
  simp [Utilities.PrettyTime, Int.natAbs_neg]

/-- Claim C10: `DoInAMinuteOrSo` schedules the receiver's slot with a
delay of `(60 + qrand() % 60) * kMsecPerSec` milliseconds, which always
lies in the inclusive range `60000 .. 119000` whatever `qrand()` returned. -/
theorem doInAMinuteOrSo_range (q : Nat) :
    60000 ≤ DoInAMinuteOrSo q ∧ DoInAMinuteOrSo q ≤ 119000 := by
  unfold DoInAMinuteOrSo DoAfter kMsecPerSec
  have h : q % 60 ≤ 59 := Nat.le_of_lt_succ (Nat.mod_lt _ (by omega))
  omega

end Clementine
